import Mathlib

/-!
Verification of the Sphinx directive adapter (`deprecated/sphinx.py`).

Shallow embedding: Python strings are modelled as `List Char` with LF (`\n`)
as the line terminator, and the Python standard-library helpers the adapter
calls (`str.splitlines`, `str.split`, `str.strip`, `textwrap.dedent`,
`textwrap.fill`, the two `re.sub` calls) are modelled as executable Lean
functions translated from their CPython implementations, restricted to
ASCII whitespace and LF line endings (the `textwrap` word splitter is the
whitespace-run splitter; hyphen-aware chunk splitting of compound words is
not modelled, long-word breaking including its hyphen search is).
-/

namespace DeprecatedSphinx

/-- Python strings are modelled as lists of characters. -/
abbrev Str := List Char

/-- Convert a Lean string literal to the model type. -/
def ofString (s : String) : Str := s.data

/-- The backtick character. -/
def btick : Char := Char.ofNat 96

/-- Python whitespace characters (ASCII subset relevant here). -/
def pyIsSpace (c : Char) : Bool :=
  c == ' ' || c == '\t' || c == '\n' || c == '\x0b' || c == '\x0c' || c == '\r'

/-- Helper for `splitlines`: accumulate the current line (reversed). -/
def splitlinesAux (acc : Str) : Str → List Str
  | [] => if acc = [] then [] else [acc.reverse]
  | c :: cs =>
    if c = '\n' then acc.reverse :: splitlinesAux [] cs
    else splitlinesAux (c :: acc) cs

/-- Python `str.splitlines()` (terminators dropped), restricted to LF. -/
def splitlines (s : Str) : List Str := splitlinesAux [] s

/-- Helper for `splitlinesKeep`. -/
def splitlinesKeepAux (acc : Str) : Str → List Str
  | [] => if acc = [] then [] else [acc.reverse]
  | c :: cs =>
    if c = '\n' then (acc.reverse ++ ['\n']) :: splitlinesKeepAux [] cs
    else splitlinesKeepAux (c :: acc) cs

/-- Python `str.splitlines(True)` (terminators kept), restricted to LF. -/
def splitlinesKeep (s : Str) : List Str := splitlinesKeepAux [] s

/-- Helper for `splitNl`. -/
def splitNlAux (acc : Str) : Str → List Str
  | [] => [acc.reverse]
  | c :: cs =>
    if c = '\n' then acc.reverse :: splitNlAux [] cs
    else splitNlAux (c :: acc) cs

/-- Python `str.split('\n')`: always one more part than separators. -/
def splitNl (s : Str) : List Str := splitNlAux [] s

/-- Python `'\n'.join(parts)`. -/
def joinNl : List Str → Str
  | [] => []
  | [l] => l
  | l :: ls => l ++ '\n' :: joinNl ls

/-- Concatenation of a list of strings (Python `''.join`). -/
def joinAll : List Str → Str
  | [] => []
  | x :: xs => x ++ joinAll xs

/-- Longest common prefix of two character lists. -/
def lcp : Str → Str → Str
  | x :: xs, y :: ys => if x = y then x :: lcp xs ys else []
  | _, _ => []

/-- Characters counted as indentation by `textwrap.dedent` (space and tab). -/
def isIndentChar (c : Char) : Bool := c == ' ' || c == '\t'

/-- Dedent step 1: lines made only of spaces/tabs are normalized to empty
(CPython `_whitespace_only_re.sub('', text)` inside `textwrap.dedent`). -/
def blankWsLines (lines : List Str) : List Str :=
  lines.map fun l => if l ≠ [] ∧ l.all isIndentChar then [] else l

/-- The leading whitespace of a line that has a non-whitespace character
(CPython `_leading_whitespace_re` inside `textwrap.dedent`). -/
def lineIndent (l : Str) : Option Str :=
  let ws := l.takeWhile isIndentChar
  if l.drop ws.length = [] then none else some ws

/-- The common margin of all non-blank lines (fold of longest common
prefixes, as computed by `textwrap.dedent`). -/
def dedentMargin (lines : List Str) : Str :=
  match lines.filterMap lineIndent with
  | [] => []
  | i :: is => is.foldl lcp i

/-- Remove the margin from a line when the line starts with it. -/
def stripMargin (margin : Str) (l : Str) : Str :=
  if margin.isPrefixOf l then l.drop margin.length else l

/-- Python `textwrap.dedent`, restricted to LF line endings. -/
def dedent (s : Str) : Str :=
  let lines := blankWsLines (splitNl s)
  let margin := dedentMargin lines
  if margin = [] then joinNl lines
  else joinNl (lines.map (stripMargin margin))

/-- Python `str.lstrip()` (ASCII whitespace). -/
def lstrip (s : Str) : Str := s.dropWhile pyIsSpace

/-- Python `str.rstrip()` (ASCII whitespace). -/
def rstrip (s : Str) : Str := (s.reverse.dropWhile pyIsSpace).reverse

/-- Python `str.strip()` (ASCII whitespace). -/
def pyStrip (s : Str) : Str := lstrip (rstrip s)

/-- Model of `re.sub(r"\n+$", "", s, flags=re.DOTALL)`: remove every
trailing newline character. -/
def rstripNewlines (s : Str) : Str := (s.reverse.dropWhile (· == '\n')).reverse

/-- Python `str.expandtabs()` (tab size 8), tracking the output column;
`\n` and `\r` reset the column. -/
def expandtabsAux : Nat → Str → Str
  | _, [] => []
  | col, c :: cs =>
    if c = '\t' then
      let pad := 8 - col % 8
      List.replicate pad ' ' ++ expandtabsAux (col + pad) cs
    else if c = '\n' ∨ c = '\r' then c :: expandtabsAux 0 cs
    else c :: expandtabsAux (col + 1) cs

/-- `TextWrapper._munge_whitespace` with `expand_tabs=True` and
`replace_whitespace=True`: expand tabs, then turn each whitespace
character into a plain space. -/
def mungeWhitespace (s : Str) : Str :=
  (expandtabsAux 0 s).map fun c => if pyIsSpace c then ' ' else c

/-- Helper for `chunkRuns`: `sp` is whether the current run is spaces. -/
def chunkRunsAux (sp : Bool) (cur : Str) : Str → List Str
  | [] => [cur.reverse]
  | c :: cs =>
    if (c == ' ') = sp then chunkRunsAux sp (c :: cur) cs
    else cur.reverse :: chunkRunsAux (c == ' ') [c] cs

/-- `TextWrapper._split` on munged text: maximal runs of spaces alternate
with maximal runs of non-spaces, empties filtered (the simple whitespace
word separator; hyphen-aware splitting of compound words is not modelled). -/
def chunkRuns : Str → List Str
  | [] => []
  | c :: cs => chunkRunsAux (c == ' ') [c] cs

/-- Total length of a list of chunks. -/
def sumLens (ls : List Str) : Nat := (ls.map List.length).sum

/-- The greedy inner loop of `TextWrapper._wrap_chunks`: take chunks while
they fit into the available width. Returns (taken, remaining). -/
def greedyTake (avail : Int) (curLen : Nat) : List Str → List Str × List Str
  | [] => ([], [])
  | c :: cs =>
    if (curLen + c.length : Int) ≤ avail then
      let p := greedyTake avail (curLen + c.length) cs
      (c :: p.1, p.2)
    else ([], c :: cs)

/-- Helper for `rfindDash`. -/
def rfindDashAux : Nat → Option Nat → Str → Option Nat
  | _, best, [] => best
  | i, best, c :: cs => rfindDashAux (i + 1) (if c = '-' then some i else best) cs

/-- Python `chunk.rfind('-', 0, stop)` on `l = chunk[:stop]`: index of the
last dash, if any. -/
def rfindDash (l : Str) : Option Nat := rfindDashAux 0 none l

/-- The cut position chosen by `TextWrapper._handle_long_word` with
`break_long_words=True` and `break_on_hyphens=True`: break at
`space_left`, or just after the last dash before it when the chunk is
longer than `space_left` and has a non-dash character before that dash. -/
def breakEnd (chunk : Str) (spaceLeft : Nat) : Nat :=
  if chunk.length > spaceLeft then
    match rfindDash (chunk.take spaceLeft) with
    | some h => if 0 < h ∧ (chunk.take h).any (fun c => c ≠ '-') then h + 1 else spaceLeft
    | none => spaceLeft
  else spaceLeft

/-- Drop a leading all-whitespace chunk, but only on non-first lines
(the `drop_whitespace and chunks[-1].strip() == '' and lines` test of
`TextWrapper._wrap_chunks`, with `drop_whitespace=True`,
`max_lines=None`). -/
def dropLeadingWs (firstLine : Bool) (chunks : List Str) : List Str :=
  match chunks with
  | [] => []
  | c :: cs => if ¬ firstLine ∧ c.all pyIsSpace then cs else c :: cs

/-- `TextWrapper._handle_long_word` applied when the next chunk is longer
than the whole available width: move the broken-off head of the chunk
onto the current line and leave the remainder in the chunk list. -/
def longWordAdjust (avail : Int) (tk rst : List Str) : List Str × List Str :=
  match rst with
  | [] => (tk, [])
  | c :: cs =>
    if (c.length : Int) > avail then
      let spaceLeft : Nat := if avail < 1 then 1 else (avail - sumLens tk).toNat
      let e := breakEnd c spaceLeft
      (tk ++ [c.take e], c.drop e :: cs)
    else (tk, c :: cs)

/-- Drop the trailing piece of the current line when it is all
whitespace (the `cur_line[-1].strip() == ''` test of `_wrap_chunks`). -/
def dropTrailingWs (cur : List Str) : List Str :=
  match cur.getLast? with
  | some lastPiece => if lastPiece.all pyIsSpace then cur.dropLast else cur
  | none => cur

/-- One iteration of the outer loop: drop a leading whitespace chunk on
non-first lines, greedily fill the line, break a long word, drop a
trailing whitespace piece, emit the line if non-empty. -/
def wrapLineStep (w : Int) (ind : Str) (firstLine : Bool) (chunks : List Str) :
    Option Str × List Str :=
  let avail : Int := w - ind.length
  let p := greedyTake avail 0 (dropLeadingWs firstLine chunks)
  let q := longWordAdjust avail p.1 p.2
  let cur := dropTrailingWs q.1
  (if cur = [] then none else some (ind ++ joinAll cur), q.2)

/-- The outer loop of `TextWrapper._wrap_chunks`, fuelled (the fuel used by
`pyWrap` is visibly sufficient: every iteration consumes a chunk or a
character). `acc` holds the emitted lines in reverse. -/
def wrapAux (w : Int) (initInd subInd : Str) : Nat → List Str → List Str → List Str
  | 0, _, acc => acc.reverse
  | _ + 1, [], acc => acc.reverse
  | fuel + 1, c :: cs, acc =>
    let firstLine := acc = []
    let ind := if firstLine then initInd else subInd
    let r := wrapLineStep w ind firstLine (c :: cs)
    match r.1 with
    | some l => wrapAux w initInd subInd fuel r.2 (l :: acc)
    | none => wrapAux w initInd subInd fuel r.2 acc

/-- Python `textwrap.wrap(text, width=w, initial_indent, subsequent_indent)`
with the default wrapper settings (minus hyphen-aware word splitting). -/
def pyWrap (w : Int) (initInd subInd : Str) (text : Str) : List Str :=
  let chunks := chunkRuns (mungeWhitespace text)
  wrapAux w initInd subInd (sumLens chunks + chunks.length + 1) chunks []

/-- Python `textwrap.fill`: the wrapped lines joined by newlines. -/
def pyFill (w : Int) (initInd subInd : Str) (text : Str) : Str :=
  joinNl (pyWrap w initInd subInd text)

example : splitlines (ofString "a\nb\n") = [ofString "a", ofString "b"] := by decide
example : splitlines (ofString "") = [] := by decide
example : splitlinesKeep (ofString "a\nb") = [ofString "a\n", ofString "b"] := by decide
example : splitNl (ofString "a\nb\n") = [ofString "a", ofString "b", ofString ""] := by decide
example : dedent (ofString "  a\n   b") = ofString "a\n b" := by decide
example : dedent (ofString "\nDetails here.") = ofString "\nDetails here." := by decide
example : pyStrip (ofString "  x ") = ofString "x" := by decide
example : rstripNewlines (ofString "a\n\n") = ofString "a" := by decide
example :
    pyWrap 7 (ofString "   ") (ofString "   ") (ofString "Use now instead.") =
      [ofString "   Use", ofString "   now ", ofString "   inst", ofString "   ead."] := by
  decide
example :
    pyWrap 67 (ofString "   ") (ofString "   ") (ofString "Use `new_func` instead.") =
      [ofString "   Use `new_func` instead."] := by decide

/-- The state of `SphinxAdapter` relevant to the verified behavior
(the pass-through warning fields `action`, `category` and
`extra_stacklevel` are consumed only by the base adapter and do not
influence any claim). -/
structure SphinxAdapter where
  directive : Str
  reason : Str
  version : Str
  line_length : Int
deriving DecidableEq

/-- `SphinxAdapter.__init__`: raises when the version string is empty
(Python `if not version`), otherwise stores the fields. The base
constructor is modelled from the spec as a pure store performing no
further validation. -/
def SphinxAdapter_init (directive reason version : Str) (line_length : Int) :
    Except Str SphinxAdapter :=
  if version = [] then
    Except.error (ofString "version argument is required in Sphinx directives")
  else
    Except.ok { directive := directive, reason := reason, version := version,
                line_length := line_length }

/-- The directive string `"versionadded"`. -/
def vaStr : Str := ofString "versionadded"

/-- The directive string `"versionchanged"`. -/
def vcStr : Str := ofString "versionchanged"

/-- The three-space indent used for directive body lines. -/
def indent3 : Str := ofString "   "

/-- The directive header line:
`".. {directive}:: {version}"` when the version is non-empty, else
`".. {directive}::"` (line 112 of `sphinx.py`). -/
def headerLine (a : SphinxAdapter) : Str :=
  if a.version ≠ [] then
    ofString ".. " ++ a.directive ++ ofString ":: " ++ a.version
  else
    ofString ".. " ++ a.directive ++ ofString "::"

/-- The effective wrap width (line 114 of `sphinx.py`):
`line_length - 3` when `line_length > 3`, else `2 ** 16`. -/
def effWidth (lineLength : Int) : Int :=
  if lineLength > 3 then lineLength - 3 else 65536

/-- The lines a single paragraph of the reason contributes to the
directive block (lines 116-127 of `sphinx.py`): a non-empty paragraph is
filled at the effective width with three-space indents, an empty
paragraph contributes one empty line. -/
def paragraphLines (w : Int) (p : Str) : List Str :=
  if p ≠ [] then splitlines (pyFill w indent3 indent3 p) else [[]]

/-- Map a function over a list and concatenate the resulting lists. -/
def concatMap (f : Str → List Str) : List Str → List Str
  | [] => []
  | x :: xs => f x ++ concatMap f xs

/-- The directive division `div_lines` (lines 112-127 of `sphinx.py`):
header line, then the filled paragraphs of the dedented and stripped
reason. -/
def div_lines (a : SphinxAdapter) : List Str :=
  headerLine a ::
    concatMap (paragraphLines (effWidth a.line_length))
      (splitlines (pyStrip (dedent a.reason)))

/-- Docstring normalization (lines 131-134 of `sphinx.py`): the first
keepends-line is kept verbatim, the remaining lines are joined and
dedented as a block, and the first line is prepended back. -/
def normalizeDoc (docOpt : Option Str) : Str :=
  let base := docOpt.getD []
  let lines := match splitlinesKeep base with
    | [] => [([] : Str)]
    | ls => ls
  let rest := if 1 < lines.length then dedent (joinAll (lines.drop 1)) else []
  lines.headD [] ++ rest

/-- Docstring splicing (lines 129-143 of `sphinx.py`): normalize, then
either strip all trailing newlines and append a blank line, or — for an
empty docstring — use a single newline; finally append every directive
line terminated by a newline. -/
def splice (docOpt : Option Str) (divLines : List Str) : Str :=
  let d := normalizeDoc docOpt
  let d2 := if d ≠ [] then rstripNewlines d ++ ['\n', '\n'] else ['\n']
  d2 ++ joinAll (divLines.map (fun l => l ++ ['\n']))

example :
    splice (some (ofString "Summary.\n\nDetails here.")) [ofString "H"] =
      ofString "Summary.\n\nDetails here.\n\nH\n" := by decide
example : splice none [ofString "H"] = ofString "\nH\n" := by decide

/-- Match a backtick-delimited group `` `[^`]*` `` at the head of the
input; on success return (matched text including backticks, rest). -/
def matchBacktickPart : Str → Option (Str × Str)
  | [] => none
  | c :: rest =>
    if c = btick then
      match rest.drop (rest.takeWhile (fun d => d ≠ btick)).length with
      | c2 :: rest2 =>
        if c2 = btick then
          some (btick :: (rest.takeWhile (fun d => d ≠ btick) ++ [btick]), rest2)
        else none
      | [] => none
    else none

/-- Match the mandatory part `` :[a-zA-Z]+:`[^`]*` `` of the
cross-reference pattern at the head of the input; on success return
(the backtick group, rest). -/
def matchMand : Str → Option (Str × Str)
  | [] => none
  | c :: rest =>
    if c = ':' then
      if rest.takeWhile Char.isAlpha = [] then none
      else
        match rest.drop (rest.takeWhile Char.isAlpha).length with
        | c2 :: rest2 => if c2 = ':' then matchBacktickPart rest2 else none
        | [] => none
    else none

/-- The optional-domain attempt: consume `:[a-zA-Z]+` then require the
mandatory part. -/
def matchRefDomain : Str → Option (Str × Str)
  | [] => none
  | c :: rest =>
    if c = ':' then
      if rest.takeWhile Char.isAlpha = [] then none
      else matchMand (rest.drop (rest.takeWhile Char.isAlpha).length)
    else none

/-- Match the full pattern `` (?::[a-zA-Z]+)?:[a-zA-Z]+:(`[^`]*`) `` at the
head of the input, trying the optional domain segment first (as the
backtracking regex engine does). -/
def matchRef (s : Str) : Option (Str × Str) :=
  match matchRefDomain s with
  | some r => some r
  | none => matchMand s

/-- Fuelled scan for
`re.sub(r"(?::[a-zA-Z]+)?:[a-zA-Z]+:(`[^`]*`)", r"\1", msg)`: at each
position replace the leftmost match by its backtick group, else keep the
character. A match always consumes at least one character, so fuel equal
to the length of the input is sufficient. -/
def stripRefsAux : Nat → Str → Str
  | 0, s => s
  | _ + 1, [] => []
  | fuel + 1, c :: rest =>
    match matchRef (c :: rest) with
    | some (g, after) => g ++ stripRefsAux fuel after
    | none => c :: stripRefsAux fuel rest

/-- Model of the `re.sub` call in `get_deprecated_msg`
(line 168 of `sphinx.py`). -/
def stripRefs (s : Str) : Str := stripRefsAux s.length s

/-- `SphinxAdapter.get_deprecated_msg` (lines 150-169 of `sphinx.py`):
the base adapter's message — modelled from the spec as an arbitrary
input string, since `ClassicAdapter.get_deprecated_msg` is outside the
studied source — with every Sphinx cross-reference stripped. -/
def get_deprecated_msg (baseMsg : Str) : Str := stripRefs baseMsg

/-- The decorated target entity: an optional docstring and a behavior
(concretized as a function on naturals). -/
structure Target where
  doc : Option Str
  call : Nat → Nat

/-- The result of decoration: the stored docstring and the possibly
wrapped behavior, which on each invocation returns the runtime warnings
it emits together with the value. -/
structure Decorated where
  doc : Str
  call : Nat → List Str × Nat

/-- Modelled from the spec: `ClassicAdapter.__call__` (the Base Adapter's
call-wrapping operation, outside the studied source) returns a callable
that on every invocation emits one runtime warning with the message
produced by `get_deprecated_msg` and then delegates to the original
behavior. -/
def classic_call (msg : Str) (doc : Str) (f : Nat → Nat) : Decorated :=
  { doc := doc, call := fun x => ([msg], f x) }

/-- `SphinxAdapter.__call__` (lines 103-148 of `sphinx.py`): build the
directive division, splice it into the docstring, store it, and return
the target itself for `versionadded`/`versionchanged` or the base
adapter's call-wrapping otherwise. `baseMsg` stands for the message the
base adapter would build for this target. -/
def SphinxAdapter_call (a : SphinxAdapter) (baseMsg : Str) (t : Target) : Decorated :=
  let newdoc := splice t.doc (div_lines a)
  if a.directive = vaStr ∨ a.directive = vcStr then
    { doc := newdoc, call := fun x => ([], t.call x) }
  else
    classic_call (get_deprecated_msg baseMsg) newdoc t.call

/-- The warnings emitted by a sequence of invocations of a decorated
entity. -/
def callWarnings (d : Decorated) : List Nat → List Str
  | [] => []
  | x :: xs => (d.call x).1 ++ callWarnings d xs

example :
    stripRefs (ofString "Call :py:func:`old_thing` now") =
      ofString "Call `old_thing` now" := by decide
example :
    stripRefs (ofString ":func:`a` and :std:ref:`b c`") =
      ofString "`a` and `b c`" := by decide
example :
    stripRefs (ofString "keep `plain` text") = ofString "keep `plain` text" := by
  decide
example :
    div_lines { directive := ofString "deprecated", reason := ofString "Use `new_func` instead.",
                version := ofString "2.1.0", line_length := 70 } =
      [ofString ".. deprecated:: 2.1.0", ofString "   Use `new_func` instead."] := by
  decide
example :
    div_lines { directive := vaStr, reason := [], version := ofString "1.0",
                line_length := 70 } = [ofString ".. versionadded:: 1.0"] := by decide

/-! ## Helper lemmas about the splicing pipeline -/

theorem dedent_nil : dedent [] = [] := by decide

theorem splice_of_empty (docOpt : Option Str) (b : List Str)
    (h : normalizeDoc docOpt = []) :
    splice docOpt b = '\n' :: joinAll (b.map (fun l => l ++ ['\n'])) := by
  simp only [splice, h, ne_eq, not_true_eq_false, if_false, List.singleton_append]

theorem splice_of_nonempty (docOpt : Option Str) (b : List Str)
    (h : normalizeDoc docOpt ≠ []) :
    splice docOpt b =
      rstripNewlines (normalizeDoc docOpt) ++ ['\n', '\n'] ++
        joinAll (b.map (fun l => l ++ ['\n'])) := by
  simp only [splice, h, ne_eq, not_false_eq_true, if_true, List.append_assoc]

theorem head?_dropWhile_nl (l : Str) :
    (l.dropWhile (· == '\n')).head? ≠ some '\n' := by
  induction l with
  | nil => simp [List.dropWhile]
  | cons c cs ih =>
    by_cases hc : c = '\n'
    · simpa [List.dropWhile, hc] using ih
    · have hb : (c == '\n') = false := by simp [hc]
      simp [List.dropWhile, hb, hc]

theorem rstripNewlines_getLast? (s : Str) :
    (rstripNewlines s).getLast? ≠ some '\n' := by
  unfold rstripNewlines
  rw [List.getLast?_reverse]
  exact head?_dropWhile_nl s.reverse

theorem joinAll_append (xs ys : List Str) :
    joinAll (xs ++ ys) = joinAll xs ++ joinAll ys := by
  induction xs with
  | nil => simp [joinAll]
  | cons x xs ih => simp [joinAll, ih]

theorem joinAll_splitlinesKeepAux (s : Str) :
    ∀ acc : Str, joinAll (splitlinesKeepAux acc s) = acc.reverse ++ s := by
  induction s with
  | nil =>
    intro acc
    by_cases h : acc = [] <;> simp [splitlinesKeepAux, h, joinAll]
  | cons c cs ih =>
    intro acc
    by_cases h : c = '\n'
    · subst h
      simp [splitlinesKeepAux, joinAll, ih]
    · simpa [splitlinesKeepAux, h] using ih (c :: acc)

theorem joinAll_splitlinesKeep (s : Str) : joinAll (splitlinesKeep s) = s := by
  simpa using joinAll_splitlinesKeepAux s []

theorem normalizeDoc_eq (docOpt : Option Str) :
    normalizeDoc docOpt =
      (splitlinesKeep (docOpt.getD [])).headD [] ++
        dedent (joinAll ((splitlinesKeep (docOpt.getD [])).drop 1)) := by
  simp only [normalizeDoc]
  cases h : splitlinesKeep (docOpt.getD []) with
  | nil => simp [joinAll, dedent_nil]
  | cons l ls =>
    cases ls with
    | nil => simp [joinAll, dedent_nil]
    | cons x xs =>
      have h2 : (1 : Nat) < (l :: x :: xs : List Str).length := by
        simp [List.length_cons]
      simp [h2]

theorem joinAll_blockLines_ne_nil (ls : List Str) (h : ls ≠ []) :
    joinAll (ls.map (fun l => l ++ ['\n'])) ≠ [] := by
  cases ls with
  | nil => exact absurd rfl h
  | cons x xs => simp [joinAll, List.append_eq_nil]

theorem getLast?_joinAll_blockLines (ls : List Str) (h : ls ≠ []) :
    (joinAll (ls.map (fun l => l ++ ['\n']))).getLast? = some '\n' := by
  induction ls with
  | nil => exact absurd rfl h
  | cons x xs ih =>
    cases hxs : xs with
    | nil => simp [joinAll]
    | cons y ys =>
      subst hxs
      have hne := joinAll_blockLines_ne_nil (y :: ys) (by simp)
      show ((x ++ ['\n']) ++
          joinAll ((y :: ys).map (fun l => l ++ ['\n']))).getLast? = some '\n'
      rw [List.getLast?_append_of_ne_nil _ hne]
      exact ih (by simp)


/-! ## Helper lemmas about word wrapping -/

/-- All characters of all chunks satisfy `P`. -/
def chunksChars (P : Char → Prop) (chunks : List Str) : Prop :=
  ∀ ch ∈ chunks, ∀ c ∈ ch, P c

theorem chunksChars_nil {P : Char → Prop} : chunksChars P [] := by
  intro ch hch
  simp at hch

theorem chunksChars_cons {P : Char → Prop} {x : Str} {xs : List Str} :
    chunksChars P (x :: xs) ↔ (∀ c ∈ x, P c) ∧ chunksChars P xs := by
  constructor
  · intro h
    exact ⟨h x (by simp), fun ch hch => h ch (by simp [hch])⟩
  · rintro ⟨h1, h2⟩ ch hch
    rcases List.mem_cons.mp hch with h | h
    · subst h; exact h1
    · exact h2 ch h

theorem chunksChars_append {P : Char → Prop} {xs ys : List Str} :
    chunksChars P (xs ++ ys) ↔ chunksChars P xs ∧ chunksChars P ys := by
  constructor
  · intro h
    exact ⟨fun ch hch => h ch (List.mem_append_left _ hch),
           fun ch hch => h ch (List.mem_append_right _ hch)⟩
  · rintro ⟨h1, h2⟩ ch hch
    rcases List.mem_append.mp hch with h | h
    · exact h1 ch h
    · exact h2 ch h

theorem mem_joinAll {c : Char} {ls : List Str} (h : c ∈ joinAll ls) :
    ∃ l ∈ ls, c ∈ l := by
  induction ls with
  | nil => simp [joinAll] at h
  | cons x xs ih =>
    simp only [joinAll, List.mem_append] at h
    rcases h with h | h
    · exact ⟨x, by simp, h⟩
    · obtain ⟨l, hl, hc⟩ := ih h
      exact ⟨l, by simp [hl], hc⟩

theorem greedyTake_append (avail : Int) (curLen : Nat) (l : List Str) :
    (greedyTake avail curLen l).1 ++ (greedyTake avail curLen l).2 = l := by
  induction l generalizing curLen with
  | nil => rfl
  | cons c cs ih =>
    simp only [greedyTake]
    split
    · simpa using ih (curLen + c.length)
    · rfl

theorem dropLeadingWs_chunks {P : Char → Prop} (fl : Bool) {chunks : List Str}
    (hP : chunksChars P chunks) : chunksChars P (dropLeadingWs fl chunks) := by
  cases chunks with
  | nil => exact chunksChars_nil
  | cons c cs =>
    simp only [dropLeadingWs]
    split
    · exact (chunksChars_cons.mp hP).2
    · exact hP

theorem longWordAdjust_chunks {P : Char → Prop} (avail : Int) {tk rst : List Str}
    (htk : chunksChars P tk) (hrst : chunksChars P rst) :
    chunksChars P (longWordAdjust avail tk rst).1 ∧
      chunksChars P (longWordAdjust avail tk rst).2 := by
  cases rst with
  | nil => exact ⟨htk, chunksChars_nil⟩
  | cons c cs =>
    have hc := (chunksChars_cons.mp hrst).1
    have hcs := (chunksChars_cons.mp hrst).2
    simp only [longWordAdjust]
    split
    · constructor
      · rw [chunksChars_append]
        exact ⟨htk, chunksChars_cons.mpr
          ⟨fun d hd => hc d (List.take_subset _ _ hd), chunksChars_nil⟩⟩
      · exact chunksChars_cons.mpr ⟨fun d hd => hc d (List.drop_subset _ _ hd), hcs⟩
    · exact ⟨htk, hrst⟩

theorem dropTrailingWs_eq_or (cur : List Str) :
    dropTrailingWs cur = cur.dropLast ∨ dropTrailingWs cur = cur := by
  unfold dropTrailingWs
  cases cur.getLast? with
  | none => right; rfl
  | some lastPiece =>
    show (if lastPiece.all pyIsSpace = true then cur.dropLast else cur) = cur.dropLast ∨
      (if lastPiece.all pyIsSpace = true then cur.dropLast else cur) = cur
    by_cases hb : lastPiece.all pyIsSpace = true
    · rw [if_pos hb]
      left
      rfl
    · rw [if_neg hb]
      right
      rfl

theorem dropTrailingWs_chunks {P : Char → Prop} {cur : List Str}
    (h : chunksChars P cur) : chunksChars P (dropTrailingWs cur) := by
  rcases dropTrailingWs_eq_or cur with he | he
  · rw [he]
    exact fun ch hch => h ch (List.dropLast_subset _ hch)
  · rw [he]
    exact h

theorem wrapLineStep_chunks {P : Char → Prop} (w : Int) (ind : Str) (fl : Bool)
    (chunks : List Str) (hP : chunksChars P chunks) :
    chunksChars P (wrapLineStep w ind fl chunks).2 ∧
    ∀ l, (wrapLineStep w ind fl chunks).1 = some l →
      ∃ tl, tl ≠ [] ∧ l = ind ++ joinAll tl ∧ chunksChars P tl := by
  have h1 := dropLeadingWs_chunks (P := P) fl hP
  have hsplit := greedyTake_append (w - ind.length) 0 (dropLeadingWs fl chunks)
  have htk : chunksChars P (greedyTake (w - ind.length) 0 (dropLeadingWs fl chunks)).1 ∧
      chunksChars P (greedyTake (w - ind.length) 0 (dropLeadingWs fl chunks)).2 := by
    rw [← hsplit] at h1
    exact chunksChars_append.mp h1
  have hq := longWordAdjust_chunks (P := P) (w - ind.length) htk.1 htk.2
  have hcur := dropTrailingWs_chunks (P := P) hq.1
  constructor
  · exact hq.2
  · intro l hl
    have heq : (wrapLineStep w ind fl chunks).1 =
        (if dropTrailingWs (longWordAdjust (w - ind.length)
            (greedyTake (w - ind.length) 0 (dropLeadingWs fl chunks)).1
            (greedyTake (w - ind.length) 0 (dropLeadingWs fl chunks)).2).1 = []
          then none
          else some (ind ++ joinAll (dropTrailingWs (longWordAdjust (w - ind.length)
            (greedyTake (w - ind.length) 0 (dropLeadingWs fl chunks)).1
            (greedyTake (w - ind.length) 0 (dropLeadingWs fl chunks)).2).1))) := rfl
    rw [heq] at hl
    split at hl
    · exact absurd hl (by simp)
    · rename_i hne
      exact ⟨_, hne, (Option.some.inj hl).symm, hcur⟩

theorem splice_getLast (docOpt : Option Str) (ls : List Str) (h : ls ≠ []) :
    splice docOpt ls ≠ [] ∧ (splice docOpt ls).getLast? = some '\n' := by
  have h1 := joinAll_blockLines_ne_nil ls h
  have h2 := getLast?_joinAll_blockLines ls h
  simp only [splice]
  constructor
  · simp [List.append_eq_nil, h1]
  · rw [List.getLast?_append_of_ne_nil _ h1]
    exact h2

theorem wrapAux_lines {P : Char → Prop} (w : Int) (ind : Str) :
    ∀ (fuel : Nat) (chunks acc : List Str),
      chunksChars P chunks →
      (∀ l ∈ acc, ∃ tl, tl ≠ [] ∧ l = ind ++ joinAll tl ∧ chunksChars P tl) →
      ∀ l ∈ wrapAux w ind ind fuel chunks acc,
        ∃ tl, tl ≠ [] ∧ l = ind ++ joinAll tl ∧ chunksChars P tl := by
  intro fuel
  induction fuel with
  | zero =>
    intro chunks acc _ hacc l hl
    rw [wrapAux] at hl
    exact hacc l (by simpa using hl)
  | succ fuel ih =>
    intro chunks acc hP hacc l hl
    cases chunks with
    | nil =>
      rw [wrapAux] at hl
      exact hacc l (by simpa using hl)
    | cons c cs =>
      rw [wrapAux] at hl
      have hstep := wrapLineStep_chunks (P := P) w
        (if acc = [] then ind else ind) (decide (acc = [])) (c :: cs) hP
      rw [ite_self] at hstep
      rcases hline : (wrapLineStep w (if acc = [] then ind else ind)
          (decide (acc = [])) (c :: cs)).1 with _ | l'
      · rw [ite_self] at hline
        simp only [ite_self, hline] at hl
        exact ih _ _ hstep.1 hacc l hl
      · rw [ite_self] at hline
        simp only [ite_self, hline] at hl
        refine ih _ _ hstep.1 ?_ l hl
        intro l2 hl2
        rcases List.mem_cons.mp hl2 with h | h
        · subst h
          exact hstep.2 l2 hline
        · exact hacc l2 h

theorem chunkRunsAux_chars :
    ∀ (s : Str) (sp : Bool) (cur : Str) (ch : Str),
      ch ∈ chunkRunsAux sp cur s → ∀ c ∈ ch, c ∈ cur ∨ c ∈ s := by
  intro s
  induction s with
  | nil =>
    intro sp cur ch hch c hc
    rw [chunkRunsAux] at hch
    rcases List.mem_singleton.mp hch with h
    subst h
    left
    simpa using hc
  | cons d ds ih =>
    intro sp cur ch hch c hc
    rw [chunkRunsAux] at hch
    split at hch
    · rcases ih _ _ _ hch c hc with h | h
      · rcases List.mem_cons.mp h with h' | h'
        · subst h'
          right
          simp
        · left
          exact h'
      · right
        simp [h]
    · rcases List.mem_cons.mp hch with h | h
      · subst h
        left
        simpa using hc
      · rcases ih _ _ _ h c hc with h' | h'
        · right
          rcases List.mem_singleton.mp h' with h''
          simp [h'']
        · right
          simp [h']

theorem chunkRuns_chars (s : Str) :
    chunksChars (fun c => c ∈ s) (chunkRuns s) := by
  cases s with
  | nil =>
    intro ch hch
    rw [chunkRuns] at hch
    simp at hch
  | cons d ds =>
    intro ch hch c hc
    rw [chunkRuns] at hch
    rcases chunkRunsAux_chars ds _ _ _ hch c hc with h | h
    · rcases List.mem_singleton.mp h with h'
      simp [h']
    · simp [h]

theorem mungeWhitespace_no_newline (s : Str) :
    ∀ c ∈ mungeWhitespace s, c ≠ '\n' := by
  intro c hc
  simp only [mungeWhitespace, List.mem_map] at hc
  obtain ⟨d, _, hd⟩ := hc
  by_cases h : pyIsSpace d = true
  · rw [if_pos h] at hd
    subst hd
    decide
  · rw [if_neg h] at hd
    subst hd
    intro hcon
    subst hcon
    exact h (by decide)

theorem pyWrap_lines (w : Int) (text : Str) :
    ∀ l ∈ pyWrap w indent3 indent3 text,
      ∃ tl, tl ≠ [] ∧ l = indent3 ++ joinAll tl ∧
        chunksChars (fun c => c ≠ '\n') tl := by
  intro l hl
  refine wrapAux_lines w indent3 _ _ _ ?_ (by simp) l hl
  intro ch hch c hc
  have hmem := chunkRuns_chars (mungeWhitespace text) ch hch c hc
  exact mungeWhitespace_no_newline text c hmem

theorem splitlinesAux_append_no_nl (l : Str) :
    ∀ (acc s : Str), (∀ c ∈ l, c ≠ '\n') →
      splitlinesAux acc (l ++ s) = splitlinesAux (l.reverse ++ acc) s := by
  induction l with
  | nil =>
    intro acc s _
    simp
  | cons c l' ih =>
    intro acc s hno
    have hc : ¬ c = '\n' := hno c (by simp)
    rw [List.cons_append, splitlinesAux, if_neg hc,
      ih (c :: acc) s (fun d hd => hno d (by simp [hd]))]
    simp

theorem splitlines_joinNl (ls : List Str)
    (h : ∀ l ∈ ls, l ≠ [] ∧ ∀ c ∈ l, c ≠ '\n') :
    splitlines (joinNl ls) = ls := by
  induction ls with
  | nil => rfl
  | cons x xs ih =>
    cases xs with
    | nil =>
      have hx := h x (by simp)
      show splitlinesAux [] x = [x]
      have haux := splitlinesAux_append_no_nl x [] [] hx.2
      rw [List.append_nil] at haux
      rw [haux, splitlinesAux]
      simp [hx.1]
    | cons y ys =>
      have hx := h x (by simp)
      show splitlinesAux [] (x ++ '\n' :: joinNl (y :: ys)) = x :: y :: ys
      rw [splitlinesAux_append_no_nl x [] ('\n' :: joinNl (y :: ys)) hx.2,
        splitlinesAux, if_pos rfl]
      have := ih (fun l hl => h l (by simp [hl]))
      simp only [splitlines] at this
      simp [this]

theorem paragraphLines_eq_wrap (w : Int) (p : Str) (hp : p ≠ []) :
    paragraphLines w p = pyWrap w indent3 indent3 p := by
  unfold paragraphLines pyFill
  rw [if_pos hp]
  apply splitlines_joinNl
  intro l hl
  obtain ⟨tl, _, hform, hP⟩ := pyWrap_lines w p l hl
  subst hform
  constructor
  · simp [indent3, ofString]
  · intro c hc
    rcases List.mem_append.mp hc with h | h
    · have : c = ' ' := by
        simpa [indent3, ofString] using h
      subst this
      decide
    · obtain ⟨ch, hch, hc'⟩ := mem_joinAll h
      exact hP ch hch c hc'

/-- Directive rendering as described by the specification (section 4.2):
the header line, then for each line of the dedented and stripped reason
either the word-wrapped paragraph (effective width, three-space indent on
every produced line) or a single blank line. -/
def renderDirectiveSpec (a : SphinxAdapter) : List Str :=
  headerLine a ::
    concatMap (fun p =>
        if p ≠ [] then pyWrap (effWidth a.line_length) indent3 indent3 p else [[]])
      (splitlines (pyStrip (dedent a.reason)))

theorem concatMap_congr {f g : Str → List Str} {l : List Str}
    (h : ∀ x ∈ l, f x = g x) : concatMap f l = concatMap g l := by
  induction l with
  | nil => rfl
  | cons x xs ih =>
    rw [concatMap, concatMap, h x (by simp), ih (fun y hy => h y (by simp [hy]))]

theorem mem_concatMap {f : Str → List Str} {l : List Str} {y : Str}
    (h : y ∈ concatMap f l) : ∃ x ∈ l, y ∈ f x := by
  induction l with
  | nil => simp [concatMap] at h
  | cons x xs ih =>
    rw [concatMap] at h
    rcases List.mem_append.mp h with h' | h'
    · exact ⟨x, by simp, h'⟩
    · obtain ⟨x', hx', hy⟩ := ih h'
      exact ⟨x', by simp [hx'], hy⟩

/-! ## Helper lemmas about cross-reference stripping -/

theorem matchBacktickPart_length {s g r : Str}
    (h : matchBacktickPart s = some (g, r)) : r.length < s.length := by
  cases s with
  | nil => simp [matchBacktickPart] at h
  | cons c rest =>
    rw [matchBacktickPart] at h
    by_cases hc : c = btick
    · rw [if_pos hc] at h
      split at h
      · rename_i c2 rest2 heq
        by_cases hc2 : c2 = btick
        · rw [if_pos hc2] at h
          have hr : rest2 = r := congrArg Prod.snd (Option.some.inj h)
          subst hr
          have hlen := congrArg List.length heq
          rw [List.length_drop] at hlen
          simp only [List.length_cons] at hlen ⊢
          omega
        · rw [if_neg hc2] at h
          simp at h
      · simp at h
    · rw [if_neg hc] at h
      simp at h

theorem matchMand_length {s g r : Str}
    (h : matchMand s = some (g, r)) : r.length < s.length := by
  cases s with
  | nil => simp [matchMand] at h
  | cons c rest =>
    rw [matchMand] at h
    by_cases hc : c = ':'
    · rw [if_pos hc] at h
      by_cases hal : rest.takeWhile Char.isAlpha = []
      · rw [if_pos hal] at h
        simp at h
      · rw [if_neg hal] at h
        split at h
        · rename_i c2 rest2 heq
          by_cases hc2 : c2 = ':'
          · rw [if_pos hc2] at h
            have hlt := matchBacktickPart_length h
            have hlen := congrArg List.length heq
            rw [List.length_drop] at hlen
            simp only [List.length_cons] at hlen hlt ⊢
            omega
          · rw [if_neg hc2] at h
            simp at h
        · simp at h
    · rw [if_neg hc] at h
      simp at h

theorem matchRefDomain_length {s g r : Str}
    (h : matchRefDomain s = some (g, r)) : r.length < s.length := by
  cases s with
  | nil => simp [matchRefDomain] at h
  | cons c rest =>
    rw [matchRefDomain] at h
    by_cases hc : c = ':'
    · rw [if_pos hc] at h
      by_cases hal : rest.takeWhile Char.isAlpha = []
      · rw [if_pos hal] at h
        simp at h
      · rw [if_neg hal] at h
        have hlt := matchMand_length h
        have hdl : (rest.drop (rest.takeWhile Char.isAlpha).length).length ≤
            rest.length := by
          rw [List.length_drop]
          omega
        simp only [List.length_cons]
        omega
    · rw [if_neg hc] at h
      simp at h

theorem matchRef_length {s g r : Str}
    (h : matchRef s = some (g, r)) : r.length < s.length := by
  unfold matchRef at h
  cases hd : matchRefDomain s with
  | some gr =>
    rw [hd] at h
    obtain ⟨g2, r2⟩ := gr
    change some (g2, r2) = some (g, r) at h
    have hr2 : r2 = r := congrArg Prod.snd (Option.some.inj h)
    exact hr2 ▸ matchRefDomain_length hd
  | none =>
    rw [hd] at h
    change matchMand s = some (g, r) at h
    exact matchMand_length h

theorem stripRefsAux_fuel :
    ∀ (f1 f2 : Nat) (s : Str), s.length ≤ f1 → s.length ≤ f2 →
      stripRefsAux f1 s = stripRefsAux f2 s := by
  intro f1
  induction f1 with
  | zero =>
    intro f2 s h1 _
    have hs : s = [] := by
      cases s with
      | nil => rfl
      | cons c cs => simp at h1
    subst hs
    cases f2 <;> rfl
  | succ f1 ih =>
    intro f2 s h1 h2
    cases s with
    | nil => cases f2 <;> rfl
    | cons c rest =>
      cases f2 with
      | zero => simp at h2
      | succ f2 =>
        cases hm : matchRef (c :: rest) with
        | none =>
          rw [stripRefsAux, stripRefsAux, hm]
          show c :: stripRefsAux f1 rest = c :: stripRefsAux f2 rest
          simp only [List.length_cons] at h1 h2
          rw [ih f2 rest (by omega) (by omega)]
        | some gr =>
          obtain ⟨g, a⟩ := gr
          have hlt := matchRef_length hm
          rw [stripRefsAux, stripRefsAux, hm]
          show g ++ stripRefsAux f1 a = g ++ stripRefsAux f2 a
          simp only [List.length_cons] at h1 h2 hlt
          rw [ih f2 a (by omega) (by omega)]

theorem matchRef_none_of_head {c : Char} (rest : Str) (hc : c ≠ ':') :
    matchRef (c :: rest) = none := by
  have h1 : matchRefDomain (c :: rest) = none := by
    rw [matchRefDomain, if_neg hc]
  have h2 : matchMand (c :: rest) = none := by
    rw [matchMand, if_neg hc]
  unfold matchRef
  rw [h1]
  exact h2

theorem stripRefs_cons_no_colon {c : Char} {rest : Str} (hc : c ≠ ':') :
    stripRefs (c :: rest) = c :: stripRefs rest := by
  show stripRefsAux (c :: rest).length (c :: rest) = c :: stripRefsAux rest.length rest
  rw [List.length_cons, stripRefsAux, matchRef_none_of_head rest hc]

theorem stripRefs_append_no_colon (p s : Str) (hp : ∀ c ∈ p, c ≠ ':') :
    stripRefs (p ++ s) = p ++ stripRefs s := by
  induction p with
  | nil => simp
  | cons c p' ih =>
    have hc : c ≠ ':' := hp c (by simp)
    rw [List.cons_append, stripRefs_cons_no_colon hc,
      ih (fun d hd => hp d (by simp [hd]))]
    rfl

theorem stripRefs_no_colon (m : Str) (hm : ∀ c ∈ m, c ≠ ':') :
    stripRefs m = m := by
  have h := stripRefs_append_no_colon m [] hm
  simpa [stripRefs, stripRefsAux] using h

theorem takeWhile_append_eq {p : Char → Bool} (d : Str) (x : Char) (y : Str)
    (hall : ∀ c ∈ d, p c = true) (hx : p x = false) :
    (d ++ x :: y).takeWhile p = d := by
  induction d with
  | nil => simp [List.takeWhile_cons, hx]
  | cons a d' ih =>
    have ha : p a = true := hall a (by simp)
    simp [List.takeWhile_cons, ha, ih (fun c hc => hall c (by simp [hc]))]

theorem matchBacktickPart_exact (t q : Str) (ht : ∀ c ∈ t, c ≠ btick) :
    matchBacktickPart (btick :: (t ++ (btick :: q))) =
      some (btick :: (t ++ [btick]), q) := by
  rw [matchBacktickPart, if_pos rfl]
  have h1 : (t ++ (btick :: q)).takeWhile (fun d => decide (d ≠ btick)) = t :=
    takeWhile_append_eq t btick q
      (fun c hc => by simpa using ht c hc) (by simp)
  rw [h1, List.drop_left]
  show (if btick = btick then some (btick :: (t ++ [btick]), q) else none) =
    some (btick :: (t ++ [btick]), q)
  rw [if_pos rfl]

theorem matchMand_exact (r t q : Str) (hr : r ≠ [])
    (hrall : ∀ c ∈ r, c.isAlpha = true) (ht : ∀ c ∈ t, c ≠ btick) :
    matchMand (':' :: (r ++ (':' :: (btick :: (t ++ (btick :: q)))))) =
      some (btick :: (t ++ [btick]), q) := by
  rw [matchMand, if_pos rfl]
  have h1 : (r ++ (':' :: (btick :: (t ++ (btick :: q))))).takeWhile
      Char.isAlpha = r :=
    takeWhile_append_eq r ':' (btick :: (t ++ (btick :: q))) hrall (by decide)
  rw [h1, if_neg hr, List.drop_left]
  show (if ':' = ':' then matchBacktickPart (btick :: (t ++ (btick :: q)))
    else none) = some (btick :: (t ++ [btick]), q)
  rw [if_pos rfl]
  exact matchBacktickPart_exact t q ht

theorem matchRef_domain (d r t q : Str)
    (hd : d ≠ []) (hdall : ∀ c ∈ d, c.isAlpha = true)
    (hr : r ≠ []) (hrall : ∀ c ∈ r, c.isAlpha = true)
    (ht : ∀ c ∈ t, c ≠ btick) :
    matchRef (':' :: (d ++ (':' :: (r ++ (':' :: (btick :: (t ++ (btick :: q)))))))) =
      some (btick :: (t ++ [btick]), q) := by
  have h1 : matchRefDomain
      (':' :: (d ++ (':' :: (r ++ (':' :: (btick :: (t ++ (btick :: q)))))))) =
      some (btick :: (t ++ [btick]), q) := by
    rw [matchRefDomain, if_pos rfl]
    have h2 : (d ++ (':' :: (r ++ (':' :: (btick :: (t ++ (btick :: q))))))).takeWhile
        Char.isAlpha = d :=
      takeWhile_append_eq d ':' (r ++ (':' :: (btick :: (t ++ (btick :: q)))))
        hdall (by decide)
    rw [h2, if_neg hd, List.drop_left]
    exact matchMand_exact r t q hr hrall ht
  unfold matchRef
  rw [h1]

theorem matchRef_role (r t q : Str)
    (hr : r ≠ []) (hrall : ∀ c ∈ r, c.isAlpha = true)
    (ht : ∀ c ∈ t, c ≠ btick) :
    matchRef (':' :: (r ++ (':' :: (btick :: (t ++ (btick :: q)))))) =
      some (btick :: (t ++ [btick]), q) := by
  have h1 : matchRefDomain
      (':' :: (r ++ (':' :: (btick :: (t ++ (btick :: q)))))) = none := by
    rw [matchRefDomain, if_pos rfl]
    have h2 : (r ++ (':' :: (btick :: (t ++ (btick :: q))))).takeWhile
        Char.isAlpha = r :=
      takeWhile_append_eq r ':' (btick :: (t ++ (btick :: q))) hrall (by decide)
    rw [h2, if_neg hr, List.drop_left, matchMand, if_pos rfl]
    have h3 : (btick :: (t ++ (btick :: q))).takeWhile Char.isAlpha = [] := by
      rw [List.takeWhile_cons]
      have hb : Char.isAlpha btick = false := by decide
      simp [hb]
    rw [h3]
    simp
  unfold matchRef
  rw [h1]
  exact matchMand_exact r t q hr hrall ht

theorem stripRefs_match_head (s g a : Str) (h : matchRef s = some (g, a)) :
    stripRefs s = g ++ stripRefs a := by
  cases s with
  | nil =>
    rw [matchRef] at h
    simp [matchRefDomain, matchMand] at h
  | cons c rest =>
    show stripRefsAux (c :: rest).length (c :: rest) = _
    rw [List.length_cons, stripRefsAux, h]
    show g ++ stripRefsAux rest.length a = g ++ stripRefsAux a.length a
    have hlt := matchRef_length h
    simp only [List.length_cons] at hlt
    rw [stripRefsAux_fuel rest.length a.length a (by omega) (le_refl _)]

theorem stripRefs_strip_at (p s g a : Str) (hp : ∀ c ∈ p, c ≠ ':')
    (h : matchRef s = some (g, a)) :
    stripRefs (p ++ s) = p ++ g ++ stripRefs a := by
  rw [stripRefs_append_no_colon p s hp, stripRefs_match_head s g a h,
    List.append_assoc]

/-! ## Claim theorems -/

/-- Claim C2: `SphinxAdapter` construction fails exactly when the version
string is empty; every non-empty version is accepted, and no other field
(empty reason, non-positive wrap width) is rejected. -/
theorem C2_init_validation (d r v : Str) (w : Int) :
    ((∃ e, SphinxAdapter_init d r v w = Except.error e) ↔ v = []) ∧
    (v ≠ [] →
      SphinxAdapter_init d r v w =
        Except.ok { directive := d, reason := r, version := v, line_length := w }) := by
  refine ⟨⟨?_, ?_⟩, ?_⟩
  · rintro ⟨e, he⟩
    by_contra hv
    simp [SphinxAdapter_init, hv] at he
  · intro hv
    exact ⟨ofString "version argument is required in Sphinx directives",
      by simp [SphinxAdapter_init, hv]⟩
  · intro hv
    simp [SphinxAdapter_init, hv]

/-- Witness for C2: an empty reason and a negative wrap width are
accepted when the version is non-empty. -/
theorem C2_init_validation_witness :
    SphinxAdapter_init (ofString "deprecated") [] (ofString "1.0") (-5) =
      Except.ok { directive := ofString "deprecated", reason := [],
                  version := ofString "1.0", line_length := -5 } :=
  (C2_init_validation (ofString "deprecated") [] (ofString "1.0") (-5)).2 (by decide)

/-- Claim C3: when the normalized docstring is non-empty, the spliced
result is the normalized text with all trailing newlines stripped, then
exactly two newlines, then each directive line newline-terminated; in
particular the documentation `"Summary.\n\nDetails here."` with block
`["H"]` yields `"Summary.\n\nDetails here.\n\nH\n"`. -/
theorem C3_splice_nonempty_docstring (docOpt : Option Str) (block : List Str)
    (h : normalizeDoc docOpt ≠ []) :
    splice docOpt block =
      rstripNewlines (normalizeDoc docOpt) ++ ['\n', '\n'] ++
        joinAll (block.map (fun l => l ++ ['\n'])) ∧
    splice (some (ofString "Summary.\n\nDetails here.")) [ofString "H"] =
      ofString "Summary.\n\nDetails here.\n\nH\n" :=
  ⟨splice_of_nonempty docOpt block h, by decide⟩

/-- Witness for C3 at the Summary example. -/
theorem C3_splice_nonempty_docstring_witness :
    splice (some (ofString "Summary.\n\nDetails here.")) [ofString "H"] =
      rstripNewlines (normalizeDoc (some (ofString "Summary.\n\nDetails here."))) ++
        ['\n', '\n'] ++ joinAll ([ofString "H"].map (fun l => l ++ ['\n'])) :=
  (C3_splice_nonempty_docstring (some (ofString "Summary.\n\nDetails here."))
    [ofString "H"] (by decide)).1

/-- Claim C4: an absent or empty docstring is treated as empty, replaced
by a single newline, and the directive lines are appended each
newline-terminated; with block `["H"]` the result is exactly `"\nH\n"`. -/
theorem C4_splice_no_docstring (docOpt : Option Str) (block : List Str)
    (h : docOpt = none ∨ docOpt = some []) :
    splice docOpt block = '\n' :: joinAll (block.map (fun l => l ++ ['\n'])) ∧
    splice docOpt [ofString "H"] = ofString "\nH\n" := by
  have hnorm : normalizeDoc docOpt = [] := by
    rcases h with h | h <;> subst h <;> decide
  refine ⟨splice_of_empty docOpt block hnorm, ?_⟩
  rw [splice_of_empty docOpt [ofString "H"] hnorm]
  decide

/-- Witness for C4 at an absent docstring. -/
theorem C4_splice_no_docstring_witness :
    splice none [ofString "H"] = ofString "\nH\n" :=
  (C4_splice_no_docstring none [ofString "H"] (Or.inl rfl)).2

/-- Claim C6: the block's first line is `".. {kind}:: {version}"` for a
non-empty version and `".. {kind}::"` otherwise; an empty
dedented-and-stripped reason yields the header line alone; reason `""`,
version `"1.0"`, kind versionadded gives `[".. versionadded:: 1.0"]`. -/
theorem C6_header_line (a : SphinxAdapter) :
    (div_lines a).head? = some (if a.version ≠ [] then
        ofString ".. " ++ a.directive ++ ofString ":: " ++ a.version
      else ofString ".. " ++ a.directive ++ ofString "::") ∧
    (pyStrip (dedent a.reason) = [] → div_lines a = [headerLine a]) ∧
    div_lines { directive := vaStr, reason := [], version := ofString "1.0",
                line_length := 70 } = [ofString ".. versionadded:: 1.0"] := by
  refine ⟨?_, ?_, by decide⟩
  · simp [div_lines, headerLine]
  · intro h
    simp [div_lines, h, splitlines, splitlinesAux, concatMap]

/-- Witness for C6: a whitespace-only reason dedents and strips to
nothing, so only the header line is emitted. -/
theorem C6_header_line_witness :
    div_lines { directive := ofString "deprecated", reason := ofString " \n ",
                version := ofString "2.0", line_length := 70 } =
      [headerLine { directive := ofString "deprecated", reason := ofString " \n ",
                    version := ofString "2.0", line_length := 70 }] :=
  (C6_header_line _).2.1 (by decide)

/-- Claim C8: the spliced docstring never glues the directive block onto
a non-blank trailing line — for a non-empty normalized docstring the text
before the separating blank line never ends in a newline and is followed
by exactly two newlines — and the first docstring line is kept verbatim,
only the remainder being dedented. -/
theorem C8_separation_invariant (docOpt : Option Str) (block : List Str) :
    (∃ first rest, docOpt.getD [] = first ++ rest ∧
        (splitlinesKeep (docOpt.getD [])).headD [] = first ∧
        normalizeDoc docOpt = first ++ dedent rest) ∧
    (normalizeDoc docOpt = [] →
        splice docOpt block = '\n' :: joinAll (block.map (fun l => l ++ ['\n']))) ∧
    (normalizeDoc docOpt ≠ [] →
        (rstripNewlines (normalizeDoc docOpt)).getLast? ≠ some '\n' ∧
        splice docOpt block =
          rstripNewlines (normalizeDoc docOpt) ++ ['\n', '\n'] ++
            joinAll (block.map (fun l => l ++ ['\n']))) := by
  refine ⟨?_, splice_of_empty docOpt block,
    fun h => ⟨rstripNewlines_getLast? _, splice_of_nonempty docOpt block h⟩⟩
  refine ⟨(splitlinesKeep (docOpt.getD [])).headD [],
          joinAll ((splitlinesKeep (docOpt.getD [])).drop 1), ?_, rfl,
          normalizeDoc_eq docOpt⟩
  have hjoin := joinAll_splitlinesKeep (docOpt.getD [])
  cases hk : splitlinesKeep (docOpt.getD []) with
  | nil =>
    rw [hk] at hjoin
    simp only [joinAll] at hjoin
    simp [← hjoin, joinAll]
  | cons l ls =>
    rw [hk] at hjoin
    simpa [joinAll] using hjoin.symm

/-- Witness for C8: concrete non-empty docstring with indented remainder. -/
theorem C8_separation_invariant_witness :
    (rstripNewlines (normalizeDoc (some (ofString "A\n  b\n")))).getLast? ≠
      some '\n' :=
  ((C8_separation_invariant (some (ofString "A\n  b\n")) [ofString "H"]).2.2
    (by decide)).1

/-- Claim C10: after decoration the stored docstring is non-empty and
ends with a newline: the directive block always contains at least the
header line and every appended line is newline-terminated. -/
theorem C10_doc_ends_with_newline (a : SphinxAdapter) (m : Str) (t : Target) :
    (∃ body, div_lines a = headerLine a :: body) ∧
    (SphinxAdapter_call a m t).doc ≠ [] ∧
    (SphinxAdapter_call a m t).doc.getLast? = some '\n' := by
  have hne : div_lines a ≠ [] := by simp [div_lines]
  have hdoc : (SphinxAdapter_call a m t).doc = splice t.doc (div_lines a) := by
    by_cases h : a.directive = vaStr ∨ a.directive = vcStr <;>
      simp [SphinxAdapter_call, classic_call, h]
  have hs := splice_getLast t.doc (div_lines a) hne
  exact ⟨⟨_, rfl⟩, by rw [hdoc]; exact hs.1, by rw [hdoc]; exact hs.2⟩

/-- Claim C1: dispatch depends only on the directive kind: versionadded
and versionchanged return the target behaviorally unchanged (docstring
mutated, no warning ever emitted); deprecated returns the base adapter's
call-wrapping, which emits one warning per invocation (two calls emit
two warnings) and delegates to the original behavior. -/
theorem C1_dispatch (a : SphinxAdapter) (m : Str) (t : Target) :
    ((a.directive = vaStr ∨ a.directive = vcStr) →
        SphinxAdapter_call a m t =
          { doc := splice t.doc (div_lines a), call := fun x => ([], t.call x) } ∧
        ∀ xs, callWarnings (SphinxAdapter_call a m t) xs = []) ∧
    (a.directive = ofString "deprecated" →
        SphinxAdapter_call a m t =
          classic_call (get_deprecated_msg m) (splice t.doc (div_lines a)) t.call ∧
        (∀ x, (SphinxAdapter_call a m t).call x = ([get_deprecated_msg m], t.call x)) ∧
        ∀ x y, (callWarnings (SphinxAdapter_call a m t) [x, y]).length = 2) := by
  constructor
  · intro h
    have hcall : SphinxAdapter_call a m t =
        { doc := splice t.doc (div_lines a), call := fun x => ([], t.call x) } := by
      simp [SphinxAdapter_call, h]
    refine ⟨hcall, ?_⟩
    intro xs
    rw [hcall]
    induction xs with
    | nil => rfl
    | cons x xs ih => simp [callWarnings, ih]
  · intro h
    have hcond : ¬(a.directive = vaStr ∨ a.directive = vcStr) := by
      rw [h]; decide
    have hcall : SphinxAdapter_call a m t =
        classic_call (get_deprecated_msg m) (splice t.doc (div_lines a)) t.call := by
      simp [SphinxAdapter_call, hcond]
    refine ⟨hcall, fun x => by simp [hcall, classic_call], fun x y => by
      simp [callWarnings, hcall, classic_call]⟩

/-- Witness for C1: a versionadded decoration emits no warning over two
calls; a deprecated decoration emits exactly two warnings over two calls. -/
theorem C1_dispatch_witness :
    callWarnings (SphinxAdapter_call
        { directive := vaStr, reason := [], version := ofString "1.0",
          line_length := 70 } (ofString "m") { doc := none, call := fun n => n })
        [0, 1] = [] ∧
    (callWarnings (SphinxAdapter_call
        { directive := ofString "deprecated", reason := [], version := ofString "1.0",
          line_length := 70 } (ofString "m") { doc := none, call := fun n => n })
        [0, 1]).length = 2 :=
  ⟨((C1_dispatch _ (ofString "m") _).1 (Or.inl rfl)).2 [0, 1],
   ((C1_dispatch _ (ofString "m") _).2 rfl).2.2 0 1⟩

/-- Claim C5: rendering computes the effective width as
`line_length - 3` when `line_length > 3` and `65536` otherwise, then maps
each line of the dedented-and-stripped reason to its word-wrapped lines
(three-space indent on every produced line) or a blank line; the
`"Use `new_func` instead."` example at width 70 renders as stated. -/
theorem C5_directive_rendering (a : SphinxAdapter) :
    div_lines a = renderDirectiveSpec a ∧
    effWidth a.line_length =
      (if a.line_length > 3 then a.line_length - 3 else 65536) ∧
    (∀ l ∈ (div_lines a).tail, l = [] ∨ ∃ tl, l = indent3 ++ tl) ∧
    div_lines { directive := ofString "deprecated",
                reason := ofString "Use `new_func` instead.",
                version := ofString "2.1.0", line_length := 70 } =
      [ofString ".. deprecated:: 2.1.0", ofString "   Use `new_func` instead."] := by
  refine ⟨?_, rfl, ?_, by decide⟩
  · unfold div_lines renderDirectiveSpec
    congr 1
    apply concatMap_congr
    intro p hp
    by_cases h : p = []
    · simp [paragraphLines, h]
    · rw [paragraphLines_eq_wrap _ p h, if_pos h]
  · intro l hl
    have hmem : l ∈ concatMap (paragraphLines (effWidth a.line_length))
        (splitlines (pyStrip (dedent a.reason))) := by
      simpa [div_lines] using hl
    obtain ⟨p, _, hlp⟩ := mem_concatMap hmem
    by_cases h : p = []
    · left
      subst h
      simpa [paragraphLines] using hlp
    · right
      rw [paragraphLines_eq_wrap _ p h] at hlp
      obtain ⟨tl, _, hform, _⟩ := pyWrap_lines _ p l hlp
      exact ⟨joinAll tl, hform⟩

/-- Witness for C5: the body line of the deprecated example carries the
three-space indent. -/
theorem C5_directive_rendering_witness :
    ofString "   Use `new_func` instead." = [] ∨
      ∃ tl, ofString "   Use `new_func` instead." = indent3 ++ tl :=
  (C5_directive_rendering
      ⟨ofString "deprecated", ofString "Use `new_func` instead.",
        ofString "2.1.0", 70⟩).2.2.1
    (ofString "   Use `new_func` instead.") (by decide)

/-- Claim C7: message construction takes the base adapter's message and
replaces every substring of the form an optional `:domain:` segment then
`:role:` (domain and role being letter sequences) immediately followed by
backtick-delimited text with just the backtick-delimited text;
independent matches are stripped independently, and backtick text not
preceded by such a prefix (in particular any colon-free text) is left
verbatim; a message containing `:py:func:` followed by backtick text
keeps only the backtick text. -/
theorem C7_message_stripping (m p q d r t : Str) :
    get_deprecated_msg m = stripRefs m ∧
    ((∀ c ∈ m, c ≠ ':') → stripRefs m = m) ∧
    ((∀ c ∈ p, c ≠ ':') → d ≠ [] → (∀ c ∈ d, c.isAlpha = true) →
      r ≠ [] → (∀ c ∈ r, c.isAlpha = true) → (∀ c ∈ t, c ≠ btick) →
      stripRefs (p ++ (':' :: (d ++ (':' :: (r ++ (':' ::
          (btick :: (t ++ (btick :: q))))))))) =
        p ++ (btick :: (t ++ [btick])) ++ stripRefs q ∧
      stripRefs (p ++ (':' :: (r ++ (':' :: (btick :: (t ++ (btick :: q))))))) =
        p ++ (btick :: (t ++ [btick])) ++ stripRefs q) ∧
    stripRefs (ofString "Use :py:func:`old_thing` or :func:`other` and `plain`.") =
      ofString "Use `old_thing` or `other` and `plain`." := by
  refine ⟨rfl, stripRefs_no_colon m, ?_, by decide⟩
  intro hp hd hdall hr hrall ht
  exact ⟨stripRefs_strip_at p _ _ q hp (matchRef_domain d r t q hd hdall hr hrall ht),
         stripRefs_strip_at p _ _ q hp (matchRef_role r t q hr hrall ht)⟩

/-- Witness for C7: stripping `:py:func:` from a concrete message. -/
theorem C7_message_stripping_witness :
    stripRefs (ofString "Call " ++ (':' :: (ofString "py" ++ (':' ::
        (ofString "func" ++ (':' :: (btick :: (ofString "old_thing" ++
          (btick :: ofString " now"))))))))) =
      ofString "Call " ++ (btick :: (ofString "old_thing" ++ [btick])) ++
        stripRefs (ofString " now") :=
  ((C7_message_stripping [] (ofString "Call ") (ofString " now") (ofString "py")
      (ofString "func") (ofString "old_thing")).2.2.1 (by decide) (by decide)
      (by decide) (by decide) (by decide) (by decide)).1

/-- Claim C9: dispatch is not exhaustive over the three documented kinds:
every directive other than versionadded/versionchanged — not only
deprecated — receives the warning-emitting call-wrapping. -/
theorem C9_dispatch_not_exhaustive (a : SphinxAdapter) (m : Str) (t : Target)
    (h1 : a.directive ≠ vaStr) (h2 : a.directive ≠ vcStr) :
    SphinxAdapter_call a m t =
      classic_call (get_deprecated_msg m) (splice t.doc (div_lines a)) t.call ∧
    ∀ x, (SphinxAdapter_call a m t).call x = ([get_deprecated_msg m], t.call x) := by
  have hcond : ¬(a.directive = vaStr ∨ a.directive = vcStr) := by
    rintro (h | h)
    · exact h1 h
    · exact h2 h
  have hcall : SphinxAdapter_call a m t =
      classic_call (get_deprecated_msg m) (splice t.doc (div_lines a)) t.call := by
    simp [SphinxAdapter_call, hcond]
  exact ⟨hcall, fun x => by simp [hcall, classic_call]⟩

/-- Witness for C9: an undocumented directive kind `"custom"` still gets
the warning-emitting wrapper. -/
theorem C9_dispatch_not_exhaustive_witness :
    (SphinxAdapter_call
        { directive := ofString "custom", reason := [], version := ofString "1.0",
          line_length := 70 } (ofString "msg")
        { doc := none, call := fun n => n }).call 5 =
      ([get_deprecated_msg (ofString "msg")], 5) :=
  (C9_dispatch_not_exhaustive _ (ofString "msg") _ (by decide) (by decide)).2 5

end DeprecatedSphinx
